import Mathlib

/-
Verification of the data-preparation pipeline of location_tracker.py
(a pandas + streamlit dashboard showing tag positions on two floors).

Shallow embedding conventions:
  - a pandas cell is modelled by `Cell`: missing values (NaN/NaT) are `Cell.na`,
    numeric values are `Cell.num` (integers; no claim depends on fractional
    coordinates), datetime values are `Cell.time` (an integer epoch; date-time
    literals are abstracted as integers, so string parsing of both numbers and
    timestamps is modelled by String.toInt?),
    and unparsed source text is `Cell.text`;
  - a DataFrame row is `Row`, a DataFrame is a `List Row` in row order;
  - pandas elementwise equality (`df[col] == v`), under which NaN compares
    unequal to everything including NaN, is `pdEq`;
  - `pd.to_numeric(col, errors := coerce)` and `pd.to_datetime(col,
    errors := coerce)` are `toNumeric` / `toDatetime` applied elementwise;
  - `sort_values(Timestamp)` is modelled as the stable ascending
    `List.insertionSort` on the timestamp key;
  - Python exceptions that the script can raise inside the try-block are
    modelled by `Except PipeError`: the IndexError of `.iloc[-1]` on an empty
    frame (the spec names it EmptyDatasetError) is `PipeError.emptyDataset`,
    and the ValueError of `pd.concat([])` on no frames is
    `PipeError.emptyConcat`.
-/

namespace LocationTracker

/-- A pandas cell: missing (NaN/NaT), numeric, datetime, or raw text. -/
inductive Cell where
  | na
  | num (n : Int)
  | time (t : Int)
  | text (s : String)
deriving DecidableEq, Repr

/-- Whether a cell is missing (pandas isna). -/
def Cell.isNA : Cell → Bool
  | .na => true
  | _ => false

/-- Elementwise pd.to_numeric(col, errors coerce): numbers pass through,
text is parsed (unparseable text coerces to NaN), missing stays missing. -/
def toNumeric : Cell → Cell
  | .na => .na
  | .num n => .num n
  | .time t => .num t
  | .text s => match s.toInt? with
    | some n => .num n
    | none => .na

/-- Elementwise pd.to_datetime(col, errors coerce): datetimes pass through,
numbers are read as epochs, text is parsed (unparseable text coerces to NaT),
missing stays missing. -/
def toDatetime : Cell → Cell
  | .na => .na
  | .time t => .time t
  | .num n => .time n
  | .text s => match s.toInt? with
    | some t => .time t
    | none => .na

/-- One DataFrame row with the columns the script uses. -/
structure Row where
  tag : Cell
  x : Cell
  y : Cell
  timestamp : Cell
  floor : Cell
deriving DecidableEq, Repr

/-- The timestamp sort key of a row. Only applied to rows whose Timestamp
column holds a parsed datetime value. -/
def Row.ts (r : Row) : Int :=
  match r.timestamp with
  | .time t => t
  | .num n => n
  | _ => 0

/-- Pandas elementwise equality: NaN is unequal to everything (including NaN);
otherwise value equality. -/
def pdEq (a b : Cell) : Bool :=
  match a, b with
  | .na, _ => false
  | _, .na => false
  | a, b => decide (a = b)

/-- load_data (location_tracker.py lines 13-25) minus the network fetch:
drop rows with missing Timestamp, coerce X and Y to numeric and Timestamp to
datetime, drop rows where any of the three is missing after coercion, then
stamp every surviving row with the floor identifier. -/
def load_data (sheet_name : String) (df : List Row) : List Row :=
  let df1 := df.filter (fun r => !r.timestamp.isNA)
  let df2 := df1.map (fun r =>
    { r with x := toNumeric r.x, y := toNumeric r.y, timestamp := toDatetime r.timestamp })
  let df3 := df2.filter (fun r => !r.x.isNA && !r.y.isNA && !r.timestamp.isNA)
  df3.map (fun r => { r with floor := Cell.text sheet_name })

/-- Validity of a raw row under load_data: X and Y parse as numeric, the
Timestamp is present and parses as a datetime. (Conjunction order follows
how the two dropna filters of load_data compose.) -/
def validRow (r : Row) : Bool :=
  (!(toNumeric r.x).isNA && (!(toNumeric r.y).isNA && !(toDatetime r.timestamp).isNA))
    && !r.timestamp.isNA

/-- What load_data does to one surviving row: coerce X, Y, Timestamp and
stamp the floor; the tag is untouched. -/
def prcRow (sheet_name : String) (r : Row) : Row :=
  { tag := r.tag, x := toNumeric r.x, y := toNumeric r.y,
    timestamp := toDatetime r.timestamp, floor := Cell.text sheet_name }

/-- Ascending timestamp order on rows. -/
def tsLE (a b : Row) : Prop := a.ts ≤ b.ts

instance : DecidableRel tsLE := fun a b => inferInstanceAs (Decidable (a.ts ≤ b.ts))

instance : IsTotal Row tsLE := ⟨fun a b => Int.le_total a.ts b.ts⟩

instance : IsTrans Row tsLE := ⟨fun _ _ _ h1 h2 => le_trans h1 h2⟩

/-- df.sort_values(Timestamp), modelled as a stable ascending sort on the
timestamp key. -/
def sortByTs (l : List Row) : List Row := List.insertionSort tsLE l

/-- Failures of the pipeline, as the spec names them. `emptyDataset` is the
IndexError raised by iloc[-1] on an empty frame (the latest-position step);
`emptyConcat` is the ValueError raised by pd.concat on an empty list of
frames; `dataSource` stands for a failed remote fetch (outside this model). -/
inductive PipeError where
  | dataSource
  | emptyDataset
  | emptyConcat
deriving DecidableEq, Repr

/-- The latest-position selector (line 38): sort the combined frame ascending
by Timestamp and take the last row; on an empty frame iloc[-1] fails. -/
def latestPos (dfAll : List Row) : Except PipeError Row :=
  match (sortByTs dfAll).getLast? with
  | some r => Except.ok r
  | none => Except.error PipeError.emptyDataset

/-- Helper for firstUnique: keep the values not seen yet, in order,
remembering what has been seen. -/
def firstUniqueAux (seen : List Cell) : List Cell → List Cell
  | [] => []
  | a :: l =>
    if a ∈ seen then firstUniqueAux seen l
    else a :: firstUniqueAux (seen ++ [a]) l

/-- df[col].unique(): the distinct values in order of first appearance
(pandas unique does treat NaN as one deduplicated value). -/
def firstUnique (l : List Cell) : List Cell := firstUniqueAux [] l

/-- df.tail(n) for an optional limit (`none` is the "All" choice): keep the
last n rows, or everything when n exceeds the length. -/
def tailN (limit : Option Nat) (l : List Row) : List Row :=
  match limit with
  | none => l
  | some n => l.drop (l.length - n)

/-- The history filter (lines 101-113). A specific tag choice selects that
tag's rows, sorts ascending by Timestamp and keeps the last `limit`; the
"All" choice (`none`) does the same per distinct tag and concatenates the
per-tag frames; pd.concat fails when the list of frames is empty. -/
def historyFilter (df : List Row) (tagChoice : Option String) (limit : Option Nat) :
    Except PipeError (List Row) :=
  match tagChoice with
  | some tc => Except.ok (tailN limit (sortByTs (df.filter (fun r => pdEq r.tag (Cell.text tc)))))
  | none =>
    let tags := firstUnique (df.map (fun r => r.tag))
    let frames := tags.map (fun t => tailN limit (sortByTs (df.filter (fun r => pdEq r.tag t))))
    if frames.isEmpty then Except.error PipeError.emptyConcat
    else Except.ok frames.flatten

/-- groupby(Tag).cumcount() threaded down a list of rows: each row is paired
with the number of earlier rows sharing its tag; rows whose tag is missing
are not part of any group and get a missing count. -/
def cumcountFrom (prev : List Row) : List Row → List (Row × Option Nat)
  | [] => []
  | r :: rest =>
    (r, if r.tag.isNA then none
        else some ((prev.filter (fun q => decide (q.tag = r.tag))).length))
      :: cumcountFrom (prev ++ [r]) rest

/-- Series.rank(pct := true) of the value v among vals, pandas method
average: ranks below v, plus the average rank of the ties at v, divided by
the group size. (In fadeRank the values are a group's cumcounts, which are
pairwise distinct, so the tie term is the single value v itself.) -/
def avgRankPct (vals : List Nat) (v : Nat) : Rat :=
  ((vals.countP (fun w => decide (w < v)) : Rat)
      + ((vals.countP (fun w => decide (w = v)) : Rat) + 1) / 2)
    / (vals.length : Rat)

/-- A row with the two derived columns the fade step attaches. -/
structure RankedRow where
  row : Row
  order : Option Nat
  alpha : Option Rat
deriving DecidableEq, Repr

/-- One row's derived columns in the fade step, given the cumcount
annotation wo of the whole sorted frame: the order is the row's cumcount,
and alpha is the pct rank of that cumcount among its tag group's cumcounts
(rows with a missing tag belong to no group and keep missing values). -/
def attachAlpha (wo : List (Row × Option Nat)) (p : Row × Option Nat) : RankedRow :=
  { row := p.1, order := p.2,
    alpha := match p.2 with
      | none => none
      | some k =>
        some (avgRankPct
          ((wo.filter (fun q => decide (q.1.tag = p.1.tag))).filterMap
            (fun q => q.2)) k) }

/-- The fade ranker (lines 115-118): re-sort the filtered frame ascending by
Timestamp, attach order = groupby(Tag).cumcount() and
alpha = groupby(Tag)[order].rank(pct := true). -/
def fadeRank (df : List Row) : List RankedRow :=
  let withOrder := cumcountFrom [] (sortByTs df)
  withOrder.map (attachAlpha withOrder)

/-- The rows of tag t in the fade-ranked output, with their derived columns. -/
def tagGroup (out : List Row) (t : Cell) : List RankedRow :=
  (fadeRank out).filter (fun rr => decide (rr.row.tag = t))

/-- Whether a tag value is selected by the tag choice (`none` is "All"). -/
def selectedTag (tagChoice : Option String) (t : Cell) : Bool :=
  match tagChoice with
  | none => true
  | some s => decide (t = Cell.text s)

/-- One run of the script body (lines 31-118) restricted to its data
operations, with the remote source passed in as a function from sheet name to
raw rows. Returns the pipeline result together with the list of remote
fetches performed (one pd.read_csv per load_data call, in program order:
lines 33 and 34 always run, line 93 only when the latest-position step did
not raise). -/
def runPipeline (src : String → List Row) (floorChoice : String)
    (tagChoice : Option String) (limit : Option Nat) :
    Except PipeError (Row × List RankedRow) × List String :=
  match latestPos (load_data "2nd" (src "2nd") ++ load_data "3rd" (src "3rd")) with
  | Except.error e => (Except.error e, ["2nd", "3rd"])
  | Except.ok r =>
    match historyFilter (load_data floorChoice (src floorChoice)) tagChoice limit with
    | Except.error e => (Except.error e, ["2nd", "3rd", floorChoice])
    | Except.ok out => (Except.ok (r, fadeRank out), ["2nd", "3rd", floorChoice])

/-- A raw row whose Tag cell is blank but whose X, Y, Timestamp are valid. -/
def rowNoTag : Row :=
  { tag := Cell.na, x := Cell.num 1, y := Cell.num 2,
    timestamp := Cell.time 3, floor := Cell.na }

/-- A fully valid raw row. -/
def rowT1 : Row :=
  { tag := Cell.text "T1", x := Cell.num 5, y := Cell.num 10,
    timestamp := Cell.time 100, floor := Cell.na }

/-- A sanitized row with tag A at timestamp 2. -/
def rowA2 : Row :=
  { tag := Cell.text "A", x := Cell.num 1, y := Cell.num 2,
    timestamp := Cell.time 2, floor := Cell.text "2nd" }

/-- A sanitized row with tag A at timestamp 1. -/
def rowA1 : Row :=
  { tag := Cell.text "A", x := Cell.num 5, y := Cell.num 6,
    timestamp := Cell.time 1, floor := Cell.text "2nd" }

/-- A sanitized row with tag B at timestamp 1. -/
def rowB1 : Row :=
  { tag := Cell.text "B", x := Cell.num 3, y := Cell.num 4,
    timestamp := Cell.time 1, floor := Cell.text "2nd" }

/-- A remote source serving one valid row on every sheet. -/
def exSrc : String → List Row := fun _ => [rowT1]

/-! Basic facts about cells, coercion, and the sanitizer. -/

theorem pdEq_eq_true {a b : Cell} : pdEq a b = true ↔ a = b ∧ a ≠ Cell.na := by
  cases a <;> cases b <;> simp [pdEq]

theorem toNumeric_idem (c : Cell) : toNumeric (toNumeric c) = toNumeric c := by
  cases c with
  | text s => cases h : s.toInt? <;> simp [toNumeric, h]
  | na => rfl
  | num n => rfl
  | time t => rfl

theorem toDatetime_idem (c : Cell) : toDatetime (toDatetime c) = toDatetime c := by
  cases c with
  | text s => cases h : s.toInt? <;> simp [toDatetime, h]
  | na => rfl
  | num n => rfl
  | time t => rfl

theorem load_data_eq (f : String) (df : List Row) :
    load_data f df = (df.filter validRow).map (prcRow f) := by
  simp only [load_data, List.filter_map, List.filter_filter, List.map_map]
  congr 1
  · exact List.filter_congr (fun a _ => by simp [Function.comp, validRow, Bool.and_assoc])

theorem prcRow_idem (f : String) (r : Row) : prcRow f (prcRow f r) = prcRow f r := by
  simp [prcRow, toNumeric_idem, toDatetime_idem]

theorem validRow_prcRow (f : String) (r : Row) (h : validRow r = true) :
    validRow (prcRow f r) = true := by
  simp only [validRow, prcRow, toNumeric_idem, toDatetime_idem,
    Bool.and_eq_true] at h ⊢
  tauto

/-! Facts about the timestamp sort and the latest-position selector. -/

theorem sorted_ts_le_getLast :
    ∀ (l : List Row), List.Sorted tsLE l → ∀ (h : l ≠ []) (q : Row), q ∈ l →
      q.ts ≤ (l.getLast h).ts := by
  intro l
  induction l with
  | nil => intro _ h; exact absurd rfl h
  | cons a t ih =>
    intro hs h q hq
    cases t with
    | nil =>
      simp only [List.mem_singleton] at hq
      subst hq
      simp [List.getLast]
    | cons b t2 =>
      rw [List.getLast_cons (by simp : b :: t2 ≠ [])]
      rcases List.mem_cons.mp hq with rfl | hq2
      · exact List.rel_of_sorted_cons hs _ (List.getLast_mem _)
      · exact ih hs.of_cons (by simp) q hq2

theorem sortByTs_perm (l : List Row) : (sortByTs l).Perm l :=
  List.perm_insertionSort tsLE l

theorem sortByTs_sorted (l : List Row) : List.Sorted tsLE (sortByTs l) :=
  List.sorted_insertionSort tsLE l

theorem sortByTs_ne_nil {l : List Row} (h : l ≠ []) : sortByTs l ≠ [] := by
  intro hnil
  apply h
  have hlen := (sortByTs_perm l).length_eq
  rw [hnil] at hlen
  exact List.eq_nil_of_length_eq_zero hlen.symm

theorem latestPos_error_iff (l : List Row) (e : PipeError) :
    latestPos l = Except.error e ↔ l = [] ∧ e = PipeError.emptyDataset := by
  constructor
  · intro h
    cases hg : (sortByTs l).getLast? with
    | some r => rw [latestPos, hg] at h; exact absurd h (by simp)
    | none =>
      rw [latestPos, hg] at h
      have hnil : sortByTs l = [] := List.getLast?_eq_none_iff.mp hg
      have hl : l = [] := by
        have hlen := (sortByTs_perm l).length_eq
        rw [hnil] at hlen
        exact List.eq_nil_of_length_eq_zero hlen.symm
      exact ⟨hl, by simpa using h.symm⟩
  · rintro ⟨rfl, rfl⟩
    rfl

/-! Claim theorems: sanitizer and latest-position selector. -/

/-- C1: the Row Sanitizer is a stable filter followed by a per-row coercion:
it excludes exactly the rows whose X, Y, or Timestamp is missing or fails to
parse, and every surviving row keeps its tag and input-relative order, its
X, Y, Timestamp replaced by their parsed values and its floor set to the
floor identifier passed in (prcRow changes nothing else). -/
theorem sanitizer_spec (f : String) (df : List Row) :
    load_data f df = (df.filter validRow).map (prcRow f) :=
  load_data_eq f df

/-- C2: on a non-empty combined dataset the latest-position selector
returns the row that appears last after the stable ascending sort by
timestamp, and that row has the maximum timestamp; being a pure function of
the input list, the choice is deterministic for identical input order. -/
theorem latest_position_max (df : List Row) (h : df ≠ []) :
    ∃ r, latestPos df = Except.ok r
      ∧ (sortByTs df).getLast? = some r
      ∧ ∀ q ∈ df, q.ts ≤ r.ts := by
  have hne : sortByTs df ≠ [] := sortByTs_ne_nil h
  refine ⟨(sortByTs df).getLast hne, ?_, ?_, ?_⟩
  · rw [latestPos, List.getLast?_eq_getLast _ hne]
  · exact List.getLast?_eq_getLast _ hne
  · intro q hq
    exact sorted_ts_le_getLast (sortByTs df) (sortByTs_sorted df) hne q
      ((sortByTs_perm df).mem_iff.mpr hq)

/-- Witness for C2 at a concrete two-row dataset. -/
theorem latest_position_max_witness :
    ∃ r, latestPos [rowA1, rowA2] = Except.ok r
      ∧ (sortByTs [rowA1, rowA2]).getLast? = some r
      ∧ ∀ q ∈ [rowA1, rowA2], q.ts ≤ r.ts :=
  latest_position_max [rowA1, rowA2] (by decide)

/-- C3: when both sanitized floor datasets are empty, the latest-position
selector fails with the empty-dataset error (the IndexError of iloc[-1] on
an empty frame), and that is the only error it can fail with: any error it
returns means the combined dataset was empty. -/
theorem empty_dataset_error (raw2 raw3 : List Row) :
    (load_data "2nd" raw2 ++ load_data "3rd" raw3 = [] →
      latestPos (load_data "2nd" raw2 ++ load_data "3rd" raw3)
        = Except.error PipeError.emptyDataset)
    ∧ ∀ e, latestPos (load_data "2nd" raw2 ++ load_data "3rd" raw3) = Except.error e →
        load_data "2nd" raw2 ++ load_data "3rd" raw3 = [] ∧ e = PipeError.emptyDataset := by
  constructor
  · intro h
    rw [h]
    rfl
  · intro e h
    exact (latestPos_error_iff _ e).mp h

/-- Witness for C3: empty raw input on both floors yields the
empty-dataset error. -/
theorem empty_dataset_error_witness :
    latestPos (load_data "2nd" [] ++ load_data "3rd" []) = Except.error PipeError.emptyDataset :=
  (empty_dataset_error [] []).1 rfl

/-- C8: sanitization is idempotent: running load_data on its own output
(for the same floor) returns that output unchanged, record for record. -/
theorem sanitize_idempotent (f : String) (df : List Row) :
    load_data f (load_data f df) = load_data f df := by
  rw [load_data_eq f df, load_data_eq f ((df.filter validRow).map (prcRow f))]
  have h1 : ((df.filter validRow).map (prcRow f)).filter validRow
      = (df.filter validRow).map (prcRow f) := by
    apply List.filter_eq_self.mpr
    intro a ha
    rcases List.mem_map.mp ha with ⟨r, hr, rfl⟩
    exact validRow_prcRow f r (List.mem_filter.mp hr).2
  rw [h1, List.map_map]
  exact List.map_congr_left (fun r _ => prcRow_idem f r)

/-- C9 counterexample: a raw row whose Tag cell is blank but whose X, Y and
Timestamp are valid survives sanitization, so the sanitized dataset contains
a record with a missing tag. -/
theorem sanitizer_missing_tag_cex :
    (load_data "2nd" [rowNoTag]).map (fun r => r.tag) = [Cell.na]
    ∧ (load_data "2nd" [rowNoTag]).length = 1 :=
  ⟨rfl, rfl⟩

/-- C9 amended: the sanitizer never validates the tag column; it passes each
surviving row's tag through unchanged, so sanitized records all have
non-missing, non-empty tags exactly when the raw rows do. -/
theorem sanitizer_tag_passthrough (f : String) (df : List Row)
    (h : ∀ q ∈ df, q.tag.isNA = false ∧ q.tag ≠ Cell.text "") :
    ∀ r ∈ load_data f df, r.tag.isNA = false ∧ r.tag ≠ Cell.text "" := by
  rw [load_data_eq]
  intro r hr
  rcases List.mem_map.mp hr with ⟨q, hq, rfl⟩
  have hqtag := h q (List.mem_filter.mp hq).1
  simpa [prcRow] using hqtag

/-- Witness for the amended C9 at a concrete valid row. -/
theorem sanitizer_tag_passthrough_witness :
    (prcRow "2nd" rowT1).tag.isNA = false ∧ (prcRow "2nd" rowT1).tag ≠ Cell.text "" :=
  sanitizer_tag_passthrough "2nd" [rowT1] (by decide) (prcRow "2nd" rowT1) (by decide)

/-! Fade ranker: the rows it returns. -/

theorem cumcountFrom_map_fst (prev s : List Row) :
    (cumcountFrom prev s).map (fun p => p.1) = s := by
  induction s generalizing prev with
  | nil => rfl
  | cons r rest ih => simp [cumcountFrom, ih]

/-- C7 counterexample: a two-tag history-filter output with interleaved
timestamps is reordered by the fade step (line 116 re-sorts the whole frame
by Timestamp before attaching order and alpha). -/
theorem fade_reorders_cex :
    historyFilter [rowA2, rowB1] none none = Except.ok [rowA2, rowB1]
    ∧ (fadeRank [rowA2, rowB1]).map (fun rr => rr.row) ≠ [rowA2, rowB1] := by
  constructor
  · rfl
  · decide

theorem fadeRank_map_row (df : List Row) :
    (fadeRank df).map (fun rr => rr.row) = sortByTs df := by
  simpa [fadeRank, List.map_map, Function.comp] using
    cumcountFrom_map_fst [] (sortByTs df)

/-- C7 amended: the fade ranker returns exactly the records of its input
re-sorted ascending by timestamp (the line 116 sort), each otherwise
unchanged, with only order and alpha attached; in particular it is not
re-sorted by alpha afterwards. -/
theorem fade_rank_rows (df : List Row) :
    (fadeRank df).map (fun rr => rr.row) = sortByTs df :=
  fadeRank_map_row df

/-! Fetch counting for one run of the script. -/

/-- C10 counterexample: a successful run fetches the remote source three
times (sheets 2nd and 3rd for the latest view, the chosen floor again for
the history view), contradicting the claimed bound of two. -/
theorem fetch_count_cex :
    ¬ ((runPipeline exSrc "2nd" none none).2.length ≤ 2) := by
  decide

/-- C10 amended: a run fetches the remote source at most three times: sheets
2nd and 3rd for the latest-position view, then the chosen floor's sheet for
the historical view; the third fetch happens only when the latest-position
step did not fail. -/
theorem fetch_count_at_most_three (src : String → List Row) (fc : String)
    (tc : Option String) (lim : Option Nat) :
    ((runPipeline src fc tc lim).2 = ["2nd", "3rd"]
      ∨ (runPipeline src fc tc lim).2 = ["2nd", "3rd", fc])
    ∧ (runPipeline src fc tc lim).2.length ≤ 3 := by
  cases h : latestPos (load_data "2nd" (src "2nd") ++ load_data "3rd" (src "3rd")) with
  | error e => simp [runPipeline, h]
  | ok r =>
    cases h2 : historyFilter (load_data fc (src fc)) tc lim with
    | error e => simp [runPipeline, h, h2]
    | ok out => simp [runPipeline, h, h2]

/-! The history filter: distinct tags, partition, and the All/All permutation. -/

theorem isNA_eq_false {c : Cell} : c.isNA = false ↔ c ≠ Cell.na := by
  cases c <;> simp [Cell.isNA]

theorem mem_firstUniqueAux (l : List Cell) :
    ∀ (seen : List Cell) (a : Cell),
      a ∈ firstUniqueAux seen l ↔ (a ∈ l ∧ a ∉ seen) := by
  induction l with
  | nil => intro seen a; simp [firstUniqueAux]
  | cons x l ih =>
    intro seen a
    by_cases hx : x ∈ seen
    · simp only [firstUniqueAux, if_pos hx, ih, List.mem_cons]
      constructor
      · rintro ⟨h1, h2⟩
        exact ⟨Or.inr h1, h2⟩
      · rintro ⟨h1 | h1, h2⟩
        · exact absurd (h1 ▸ hx) h2
        · exact ⟨h1, h2⟩
    · simp only [firstUniqueAux, if_neg hx, List.mem_cons, ih, List.mem_append,
        List.mem_singleton]
      rcases eq_or_ne a x with hax | hax <;> aesop

theorem nodup_firstUniqueAux (l : List Cell) :
    ∀ seen : List Cell, (firstUniqueAux seen l).Nodup := by
  induction l with
  | nil => intro seen; simp [firstUniqueAux]
  | cons x l ih =>
    intro seen
    by_cases hx : x ∈ seen
    · simpa [firstUniqueAux, if_pos hx] using ih seen
    · simp only [firstUniqueAux, if_neg hx]
      refine List.nodup_cons.mpr ⟨?_, ih _⟩
      intro hmem
      have := ((mem_firstUniqueAux l _ x).mp hmem).2
      exact this (by simp)

theorem mem_firstUnique {l : List Cell} {a : Cell} : a ∈ firstUnique l ↔ a ∈ l := by
  simp [firstUnique, mem_firstUniqueAux]

theorem nodup_firstUnique (l : List Cell) : (firstUnique l).Nodup :=
  nodup_firstUniqueAux l []

theorem flatten_map_perm (tags : List Cell) (f g : Cell → List Row)
    (h : ∀ t ∈ tags, (f t).Perm (g t)) :
    ((tags.map f).flatten).Perm (tags.map g).flatten := by
  induction tags with
  | nil => exact List.Perm.refl _
  | cons t rest ih =>
    simp only [List.map_cons, List.flatten_cons]
    exact (h t (by simp)).append (ih (fun u hu => h u (by simp [hu])))

theorem flatten_groups_perm (tags : List Cell) :
    ∀ df : List Row, tags.Nodup →
      (∀ r ∈ df, r.tag ≠ Cell.na ∧ r.tag ∈ tags) →
      ((tags.map (fun t => df.filter (fun r => pdEq r.tag t))).flatten).Perm df := by
  induction tags with
  | nil =>
    intro df _ hall
    have hdf : df = [] :=
      List.eq_nil_iff_forall_not_mem.mpr (fun r hr => by simpa using (hall r hr).2)
    simp [hdf]
  | cons t rest ih =>
    intro df hnd hall
    simp only [List.map_cons, List.flatten_cons]
    have hsplit := List.filter_append_perm (fun r => pdEq r.tag t) df
    have hrest : rest.map (fun u => df.filter (fun r => pdEq r.tag u))
        = rest.map (fun u =>
            (df.filter (fun r => !(pdEq r.tag t))).filter (fun r => pdEq r.tag u)) := by
      apply List.map_congr_left
      intro u hu
      rw [List.filter_filter]
      apply List.filter_congr
      intro r _
      cases hru : pdEq r.tag u with
      | false => simp
      | true =>
        have hu_ne : u ≠ t := fun h => (List.nodup_cons.mp hnd).1 (h ▸ hu)
        rcases pdEq_eq_true.mp hru with ⟨h1, h2⟩
        have hpt : pdEq r.tag t = false := by
          cases hpt : pdEq r.tag t with
          | false => rfl
          | true =>
            rcases pdEq_eq_true.mp hpt with ⟨h3, _⟩
            exact absurd (h1 ▸ h3) hu_ne
        simp [hpt]
    have ihh : ((rest.map (fun u =>
        (df.filter (fun r => !(pdEq r.tag t))).filter (fun r => pdEq r.tag u))).flatten).Perm
          (df.filter (fun r => !(pdEq r.tag t))) := by
      apply ih _ (List.nodup_cons.mp hnd).2
      intro r hr
      have hmem := List.mem_filter.mp hr
      obtain ⟨hna, htl⟩ := hall r hmem.1
      refine ⟨hna, ?_⟩
      rcases List.mem_cons.mp htl with heq | h2
      · exfalso
        have : pdEq r.tag t = true := pdEq_eq_true.mpr ⟨heq, hna⟩
        simp [this] at hmem
      · exact h2
    rw [hrest]
    exact (List.Perm.append_left _ ihh).trans hsplit

theorem history_all_all_eq (df : List Row) (hne : df ≠ []) :
    historyFilter df none none
      = Except.ok ((firstUnique (df.map (fun r => r.tag))).map
          (fun t => sortByTs (df.filter (fun r => pdEq r.tag t)))).flatten := by
  have htags : firstUnique (df.map (fun r => r.tag)) ≠ [] := by
    cases df with
    | nil => exact absurd rfl hne
    | cons r rest => simp [firstUnique, firstUniqueAux]
  have hfr : ((firstUnique (df.map (fun r => r.tag))).map
      (fun t => tailN none (sortByTs (df.filter (fun r => pdEq r.tag t))))).isEmpty
        = false := by
    rw [List.isEmpty_eq_false]
    simpa using htags
  simp only [historyFilter]
  rw [hfr]
  simp [tailN]

/-- C5 counterexample: the claim fails on two inputs the quantifier covers:
on the empty floor dataset the tag="All" branch builds no frames and
pd.concat raises, and a dataset whose single record has a missing Tag cell
comes back empty (NaN never equals NaN, so the row matches no tag group),
losing the record. -/
theorem history_all_all_cex :
    historyFilter ([] : List Row) none none = Except.error PipeError.emptyConcat
    ∧ historyFilter [rowNoTag] none none = Except.ok []
    ∧ ¬ (([] : List Row).Perm [rowNoTag]) := by
  refine ⟨rfl, rfl, fun h => ?_⟩
  simpa using h.length_eq

/-- C5 amended: for every non-empty floor dataset all of whose records have
a present (non-missing) tag, the history filter with tag="All" and
limit="All" succeeds and returns a permutation of the input: the per-tag
partition loses no record and duplicates none. (The empty dataset makes
pd.concat fail, and records with a missing tag are dropped, as the
counterexample shows.) -/
theorem history_all_all_perm (df : List Row) (hne : df ≠ [])
    (htag : ∀ r ∈ df, r.tag.isNA = false) :
    ∃ out, historyFilter df none none = Except.ok out ∧ out.Perm df := by
  refine ⟨_, history_all_all_eq df hne, ?_⟩
  refine List.Perm.trans
    (flatten_map_perm _ _ (fun t => df.filter (fun r => pdEq r.tag t))
      (fun t _ => sortByTs_perm _)) ?_
  refine flatten_groups_perm (firstUnique (df.map (fun r => r.tag))) df
    (nodup_firstUnique _) ?_
  intro r hr
  refine ⟨isNA_eq_false.mp (htag r hr), ?_⟩
  exact mem_firstUnique.mpr (List.mem_map.mpr ⟨r, hr, rfl⟩)

/-- Witness for the amended C5 at a concrete two-tag dataset. -/
theorem history_all_all_perm_witness :
    ∃ out, historyFilter [rowA2, rowB1, rowA1] none none = Except.ok out
      ∧ out.Perm [rowA2, rowB1, rowA1] :=
  history_all_all_perm [rowA2, rowB1, rowA1] (by decide) (by decide)

/-! Per-tag limit behaviour of the history filter. -/

theorem tailN_length_le (n : Nat) (l : List Row) : (tailN (some n) l).length ≤ n := by
  simp only [tailN, List.length_drop]
  omega

theorem tailN_of_le {n : Nat} {l : List Row} (h : l.length ≤ n) : tailN (some n) l = l := by
  simp [tailN, Nat.sub_eq_zero_of_le h]

theorem tailN_suffix (n : Nat) (l : List Row) :
    l.take (l.length - n) ++ tailN (some n) l = l := by
  simp [tailN, List.take_append_drop]

theorem mem_of_mem_tailN {lim : Option Nat} {l : List Row} {r : Row}
    (h : r ∈ tailN lim l) : r ∈ l := by
  cases lim with
  | none => exact h
  | some n => exact List.mem_of_mem_drop h

theorem sorted_take_le_drop (l : List Row) (hs : List.Sorted tsLE l) (k : Nat) :
    ∀ p ∈ l.take k, ∀ q ∈ l.drop k, p.ts ≤ q.ts := by
  rw [← List.take_append_drop k l] at hs
  exact (List.pairwise_append.mp hs).2.2

theorem historyFilter_some_out {df : List Row} {s : String} {lim : Option Nat}
    {out : List Row} (h : historyFilter df (some s) lim = Except.ok out) :
    out = tailN lim (sortByTs (df.filter (fun r => pdEq r.tag (Cell.text s)))) := by
  simp only [historyFilter, Except.ok.injEq] at h
  exact h.symm

theorem historyFilter_none_out {df : List Row} {lim : Option Nat}
    {out : List Row} (h : historyFilter df none lim = Except.ok out) :
    out = ((firstUnique (df.map (fun r => r.tag))).map
        (fun u => tailN lim (sortByTs (df.filter (fun r => pdEq r.tag u))))).flatten := by
  simp only [historyFilter] at h
  cases hfr : ((firstUnique (df.map (fun r => r.tag))).map
      (fun u => tailN lim (sortByTs (df.filter (fun r => pdEq r.tag u))))).isEmpty with
  | true => rw [hfr] at h; simp at h
  | false => rw [hfr] at h; simp only [Bool.false_eq_true, if_false, Except.ok.injEq] at h; exact h.symm

theorem mem_filter_pdEq {df : List Row} {t : Cell} {r : Row}
    (h : r ∈ df.filter (fun x => pdEq x.tag t)) : r.tag = t ∧ t ≠ Cell.na := by
  have hb := (List.mem_filter.mp h).2
  rcases pdEq_eq_true.mp hb with ⟨h1, h2⟩
  exact ⟨h1, h1 ▸ h2⟩

theorem mem_chunk {df : List Row} {lim : Option Nat} {u : Cell} {r : Row}
    (h : r ∈ tailN lim (sortByTs (df.filter (fun x => pdEq x.tag u)))) :
    r.tag = u ∧ u ≠ Cell.na ∧ r ∈ df := by
  have h2 : r ∈ sortByTs (df.filter (fun x => pdEq x.tag u)) := mem_of_mem_tailN h
  have h3 : r ∈ df.filter (fun x => pdEq x.tag u) := (sortByTs_perm _).mem_iff.mp h2
  obtain ⟨ht, hna⟩ := mem_filter_pdEq h3
  exact ⟨ht, hna, (List.mem_filter.mp h3).1⟩

theorem filter_chunk_eq {df : List Row} {lim : Option Nat} (u t : Cell) :
    (tailN lim (sortByTs (df.filter (fun x => pdEq x.tag u)))).filter
        (fun x => pdEq x.tag t)
      = if u = t then tailN lim (sortByTs (df.filter (fun x => pdEq x.tag u))) else [] := by
  by_cases hut : u = t
  · subst hut
    rw [if_pos rfl]
    apply List.filter_eq_self.mpr
    intro r hr
    obtain ⟨ht, hna, _⟩ := mem_chunk hr
    exact pdEq_eq_true.mpr ⟨ht, by rw [ht]; exact hna⟩
  · rw [if_neg hut]
    apply List.filter_eq_nil_iff.mpr
    intro r hr hpd
    obtain ⟨ht, _, _⟩ := mem_chunk hr
    rcases pdEq_eq_true.mp hpd with ⟨h1, _⟩
    exact hut (ht.symm.trans h1)

theorem flatten_map_eq_single (tags : List Cell) (f : Cell → List Row) (t : Cell)
    (hnd : tags.Nodup) (hf : ∀ u ∈ tags, u ≠ t → f u = []) :
    (tags.map f).flatten = if t ∈ tags then f t else [] := by
  induction tags with
  | nil => simp
  | cons u rest ih =>
    simp only [List.map_cons, List.flatten_cons]
    by_cases hut : u = t
    · subst hut
      have hrest : (rest.map f).flatten = [] := by
        apply List.flatten_eq_nil_iff.mpr
        intro l hl
        rcases List.mem_map.mp hl with ⟨u2, hu2, rfl⟩
        refine hf u2 (by simp [hu2]) ?_
        intro he
        exact (List.nodup_cons.mp hnd).1 (he ▸ hu2)
      simp [hrest]
    · rw [hf u (by simp) hut, List.nil_append,
        ih (List.nodup_cons.mp hnd).2 (fun u2 h2 => hf u2 (by simp [h2]))]
      by_cases htr : t ∈ rest
      · have : t ∈ u :: rest := by simp [htr]
        simp [htr, this]
      · have : t ∉ u :: rest := by
          simp only [List.mem_cons, not_or]
          exact ⟨fun h => hut h.symm, htr⟩
        simp [htr, this]

/-- C4: whenever the history filter returns with a numeric limit, then for
every tag value: the returned rows of that tag are exactly the tail of
length at most `limit` of that tag's rows sorted ascending by timestamp
(when the tag is covered by the tag choice; tags excluded by a specific tag
choice contribute no rows); hence at most `limit` rows per tag are returned,
a tag with at most `limit` rows keeps all of them (as a permutation of its
group), and every returned row's timestamp is at least that of every row
the tail cut off. -/
theorem history_limit_spec (df : List Row) (tc : Option String) (n : Nat)
    (out : List Row) (h : historyFilter df tc (some n) = Except.ok out) (t : Cell) :
    (out.filter (fun r => pdEq r.tag t)).length ≤ n
    ∧ (selectedTag tc t = true →
        out.filter (fun r => pdEq r.tag t)
          = tailN (some n) (sortByTs (df.filter (fun r => pdEq r.tag t)))
        ∧ ((df.filter (fun r => pdEq r.tag t)).length ≤ n →
            (out.filter (fun r => pdEq r.tag t)).Perm (df.filter (fun r => pdEq r.tag t)))
        ∧ ∃ pre, sortByTs (df.filter (fun r => pdEq r.tag t))
              = pre ++ out.filter (fun r => pdEq r.tag t)
            ∧ ∀ p ∈ pre, ∀ k ∈ out.filter (fun r => pdEq r.tag t), p.ts ≤ k.ts)
    ∧ (selectedTag tc t = false → out.filter (fun r => pdEq r.tag t) = []) := by
  have hog : out.filter (fun r => pdEq r.tag t)
      = (if selectedTag tc t = true
          then tailN (some n) (sortByTs (df.filter (fun r => pdEq r.tag t)))
          else []) := by
    cases tc with
    | some s =>
      rw [historyFilter_some_out h, filter_chunk_eq (Cell.text s) t]
      by_cases hts : Cell.text s = t
      · rw [if_pos hts, if_pos (by simp [selectedTag, hts.symm]), hts]
      · rw [if_neg hts,
          if_neg (by simp [selectedTag]; exact fun he => hts he.symm)]
    | none =>
      have hsel : selectedTag none t = true := rfl
      rw [if_pos hsel, historyFilter_none_out h, List.filter_flatten, List.map_map]
      rw [flatten_map_eq_single _ _ t (nodup_firstUnique _) ?hf]
      case hf =>
        intro u hu hut
        simp only [Function.comp_apply]
        rw [filter_chunk_eq u t, if_neg hut]
      by_cases htags : t ∈ firstUnique (df.map (fun r => r.tag))
      · rw [if_pos htags]
        simp only [Function.comp_apply]
        rw [filter_chunk_eq t t, if_pos rfl]
      · rw [if_neg htags]
        have hg : df.filter (fun r => pdEq r.tag t) = [] := by
          apply List.filter_eq_nil_iff.mpr
          intro r hr hpd
          rcases pdEq_eq_true.mp hpd with ⟨h1, _⟩
          exact htags (mem_firstUnique.mpr (List.mem_map.mpr ⟨r, hr, h1⟩))
        rw [hg]
        simp [tailN, sortByTs, List.insertionSort]
  refine ⟨?_, ?_, ?_⟩
  · rw [hog]
    cases hsel : selectedTag tc t with
    | true => simpa [hsel] using tailN_length_le n _
    | false => simp [hsel]
  · intro hsel
    rw [hog, if_pos hsel]
    refine ⟨rfl, ?_, ?_⟩
    · intro hlen
      have hslen : (sortByTs (df.filter (fun r => pdEq r.tag t))).length ≤ n := by
        rw [(sortByTs_perm _).length_eq]
        exact hlen
      rw [tailN_of_le hslen]
      exact sortByTs_perm _
    · refine ⟨(sortByTs (df.filter (fun r => pdEq r.tag t))).take
        ((sortByTs (df.filter (fun r => pdEq r.tag t))).length - n), ?_, ?_⟩
      · exact (tailN_suffix n _).symm
      · intro p hp k hk
        exact sorted_take_le_drop _ (sortByTs_sorted _) _ p hp k hk
  · intro hsel
    rw [hog, if_neg (by simp [hsel])]

/-- Witness for C4 at a concrete dataset: two tag-A rows, limit 1; the
filter returns only the more recent one. -/
theorem history_limit_spec_witness :
    (([rowA2] : List Row).filter (fun r => pdEq r.tag (Cell.text "A"))).length ≤ 1
    ∧ (selectedTag (some "A") (Cell.text "A") = true →
        ([rowA2] : List Row).filter (fun r => pdEq r.tag (Cell.text "A"))
          = tailN (some 1) (sortByTs ([rowA2, rowA1].filter
              (fun r => pdEq r.tag (Cell.text "A"))))
        ∧ (([rowA2, rowA1].filter (fun r => pdEq r.tag (Cell.text "A"))).length ≤ 1 →
            (([rowA2] : List Row).filter (fun r => pdEq r.tag (Cell.text "A"))).Perm
              ([rowA2, rowA1].filter (fun r => pdEq r.tag (Cell.text "A"))))
        ∧ ∃ pre, sortByTs ([rowA2, rowA1].filter (fun r => pdEq r.tag (Cell.text "A")))
              = pre ++ ([rowA2] : List Row).filter (fun r => pdEq r.tag (Cell.text "A"))
            ∧ ∀ p ∈ pre, ∀ k ∈ ([rowA2] : List Row).filter
                (fun r => pdEq r.tag (Cell.text "A")), p.ts ≤ k.ts)
    ∧ (selectedTag (some "A") (Cell.text "A") = false →
        ([rowA2] : List Row).filter (fun r => pdEq r.tag (Cell.text "A")) = []) :=
  history_limit_spec [rowA2, rowA1] (some "A") 1 [rowA2] rfl (Cell.text "A")

/-! The fade ranker: per-group cumcounts and percentile ranks. -/

theorem historyFilter_ok_tags {df : List Row} {tc : Option String} {lim : Option Nat}
    {out : List Row} (h : historyFilter df tc lim = Except.ok out) :
    ∀ r ∈ out, r.tag ≠ Cell.na := by
  intro r hr
  cases tc with
  | some s =>
    rw [historyFilter_some_out h] at hr
    obtain ⟨ht, hna, _⟩ := mem_chunk hr
    rw [ht]
    exact hna
  | none =>
    rw [historyFilter_none_out h] at hr
    rcases List.mem_flatten.mp hr with ⟨frame, hframe, hrf⟩
    rcases List.mem_map.mp hframe with ⟨u, _, rfl⟩
    obtain ⟨ht, hna, _⟩ := mem_chunk hrf
    rw [ht]
    exact hna

theorem cumcount_group_orders (s : List Row) :
    ∀ (prev : List Row) (t : Cell), t ≠ Cell.na →
      ((cumcountFrom prev s).filter (fun p => decide (p.1.tag = t))).map (fun p => p.2)
        = (List.range' ((prev.filter (fun q => decide (q.tag = t))).length)
            ((s.filter (fun q => decide (q.tag = t))).length)).map some := by
  induction s with
  | nil => intro prev t _; simp [cumcountFrom]
  | cons r rest ih =>
    intro prev t ht
    by_cases hr : r.tag = t
    · have hna2 : r.tag.isNA = false := isNA_eq_false.mpr (by rw [hr]; exact ht)
      have hcons : cumcountFrom prev (r :: rest)
          = (r, some ((prev.filter (fun q => decide (q.tag = r.tag))).length))
            :: cumcountFrom (prev ++ [r]) rest := by
        simp [cumcountFrom, hna2]
      have hprev : ((prev ++ [r]).filter (fun q => decide (q.tag = t))).length
          = (prev.filter (fun q => decide (q.tag = t))).length + 1 := by
        rw [List.filter_append]
        simp [hr]
      rw [hcons]
      rw [List.filter_cons, List.filter_cons]
      rw [if_pos (by simp [hr]), if_pos (by simp [hr])]
      rw [List.map_cons, ih (prev ++ [r]) t ht, hprev, List.length_cons,
        List.range'_succ, List.map_cons, hr]
    · have hcons : cumcountFrom prev (r :: rest)
          = (r, if r.tag.isNA then none
                else some ((prev.filter (fun q => decide (q.tag = r.tag))).length))
            :: cumcountFrom (prev ++ [r]) rest := rfl
      have hprev : ((prev ++ [r]).filter (fun q => decide (q.tag = t))).length
          = (prev.filter (fun q => decide (q.tag = t))).length := by
        rw [List.filter_append]
        simp [hr]
      rw [hcons, List.filter_cons, List.filter_cons]
      rw [if_neg (by simp [hr]), if_neg (by simp [hr])]
      rw [ih (prev ++ [r]) t ht, hprev]

theorem cumcount_group_orders_fm (s : List Row) (t : Cell) (ht : t ≠ Cell.na) :
    ((cumcountFrom [] s).filter (fun p => decide (p.1.tag = t))).filterMap (fun p => p.2)
      = List.range ((s.filter (fun q => decide (q.tag = t))).length) := by
  have h2 : ∀ (L : List (Row × Option Nat)),
      L.filterMap (fun p => p.2) = (L.map (fun p => p.2)).filterMap id := by
    intro L
    rw [List.filterMap_map]
    rfl
  rw [h2, cumcount_group_orders s [] t ht, List.filterMap_map]
  have h3 : (id ∘ some : Nat → Option Nat) = some := rfl
  rw [h3, List.filterMap_some, List.range_eq_range']
  rfl

theorem range_countP_lt (N k : Nat) :
    (List.range N).countP (fun w => decide (w < k)) = min N k := by
  induction N with
  | zero => simp
  | succ M ih =>
    rw [List.range_succ, List.countP_append, ih]
    by_cases h : M < k
    · simp [List.countP_cons, h]
      omega
    · simp [List.countP_cons, h]
      omega

theorem range_countP_eq (N k : Nat) (h : k < N) :
    (List.range N).countP (fun w => decide (w = k)) = 1 := by
  induction N with
  | zero => omega
  | succ M ih =>
    rw [List.range_succ, List.countP_append]
    by_cases hk : k < M
    · rw [ih hk]
      have hne : ¬(M = k) := by omega
      simp [List.countP_cons, hne]
    · have hMk : M = k := by omega
      have h0 : (List.range M).countP (fun w => decide (w = k)) = 0 := by
        rw [List.countP_eq_zero]
        intro a ha
        simp only [decide_eq_true_eq]
        have := List.mem_range.mp ha
        omega
      rw [h0]
      simp [List.countP_cons, hMk]

theorem avgRank_range (N k : Nat) (h : k < N) :
    avgRankPct (List.range N) k = ((k : Rat) + 1) / (N : Rat) := by
  rw [avgRankPct, range_countP_lt, range_countP_eq N k h]
  have hmin : min N k = k := by omega
  rw [hmin]
  simp only [List.length_range, Nat.cast_one]
  norm_num

theorem tagGroup_eq (out : List Row) (t : Cell) :
    tagGroup out t
      = ((cumcountFrom [] (sortByTs out)).filter (fun p => decide (p.1.tag = t))).map
          (attachAlpha (cumcountFrom [] (sortByTs out))) := by
  simp only [tagGroup, fadeRank]
  rw [List.filter_map]
  congr 1

theorem filter_fst_map (wo : List (Row × Option Nat)) (pr : Row → Bool) :
    (wo.map (fun p => p.1)).filter pr = (wo.filter (fun p => pr p.1)).map (fun p => p.1) := by
  rw [List.filter_map]
  congr 1

theorem tagGroup_map_row (out : List Row) (t : Cell) :
    (tagGroup out t).map (fun rr => rr.row)
      = (sortByTs out).filter (fun q => decide (q.tag = t)) := by
  rw [tagGroup_eq, List.map_map]
  have h1 : ((cumcountFrom [] (sortByTs out)).filter (fun p => decide (p.1.tag = t))).map
      ((fun rr => rr.row) ∘ attachAlpha (cumcountFrom [] (sortByTs out)))
      = ((cumcountFrom [] (sortByTs out)).filter (fun p => decide (p.1.tag = t))).map
          (fun p => p.1) := List.map_congr_left (fun p _ => rfl)
  rw [h1, ← filter_fst_map (cumcountFrom [] (sortByTs out))
    (fun q => decide (q.tag = t)), cumcountFrom_map_fst]

/-- Proof-layer abbreviation: the alpha computed from an order value, given
the list of order values of its tag group. -/
def rankOfOrder (vals : List Nat) : Option Nat → Option Rat
  | none => none
  | some k => some (avgRankPct vals k)

theorem tagGroup_map_alpha (out : List Row) (t : Cell) (ht : t ≠ Cell.na) :
    (tagGroup out t).map (fun rr => rr.alpha)
      = (List.range (tagGroup out t).length).map
          (fun k : Nat => some (((k : Rat) + 1) / ((tagGroup out t).length : Rat))) := by
  have horders : (((cumcountFrom [] (sortByTs out)).filter
        (fun p => decide (p.1.tag = t))).map (fun p => p.2))
      = (List.range' 0
          (((sortByTs out).filter (fun q => decide (q.tag = t))).length)).map some := by
    simpa using cumcount_group_orders (sortByTs out) [] t ht
  have hlen : (tagGroup out t).length
      = ((sortByTs out).filter (fun q => decide (q.tag = t))).length := by
    rw [tagGroup_eq, List.length_map]
    have := congrArg List.length horders
    simpa using this
  have hfm : (((cumcountFrom [] (sortByTs out)).filter
        (fun p => decide (p.1.tag = t))).filterMap (fun p => p.2))
      = List.range (((sortByTs out).filter (fun q => decide (q.tag = t))).length) :=
    cumcount_group_orders_fm (sortByTs out) t ht
  rw [hlen, tagGroup_eq, List.map_map]
  have hcongr : ∀ p ∈ (cumcountFrom [] (sortByTs out)).filter
      (fun p => decide (p.1.tag = t)),
      ((fun rr => rr.alpha) ∘ attachAlpha (cumcountFrom [] (sortByTs out))) p
        = rankOfOrder
            (List.range (((sortByTs out).filter
              (fun q => decide (q.tag = t))).length)) p.2 := by
    intro p hp
    have hptag : p.1.tag = t := by
      have := (List.mem_filter.mp hp).2
      simpa using this
    simp only [Function.comp_apply, attachAlpha]
    cases hp2 : p.2 with
    | none => rfl
    | some k =>
      simp only [rankOfOrder, hptag, hfm]
  rw [List.map_congr_left hcongr]
  have hmm : ((cumcountFrom [] (sortByTs out)).filter
      (fun p => decide (p.1.tag = t))).map
        (fun p => rankOfOrder
          (List.range (((sortByTs out).filter
            (fun q => decide (q.tag = t))).length)) p.2)
      = (((cumcountFrom [] (sortByTs out)).filter
          (fun p => decide (p.1.tag = t))).map (fun p => p.2)).map
            (rankOfOrder
              (List.range (((sortByTs out).filter
                (fun q => decide (q.tag = t))).length))) := by
    rw [List.map_map]
    rfl
  rw [hmm, horders, List.map_map, ← List.range_eq_range']
  apply List.map_congr_left
  intro k hk
  have hkN : k < ((sortByTs out).filter (fun q => decide (q.tag = t))).length :=
    List.mem_range.mp hk
  simp only [Function.comp_apply, rankOfOrder]
  rw [avgRank_range _ k hkN]

/-- C6: for every tag group of the fade-ranked history-filter output, the
alpha values are pairwise distinct rationals in (0, 1], the record carrying
the maximal alpha value 1.0 is one with the latest timestamp of its group,
and a singleton group's record gets alpha 1.0. -/
theorem fade_group_alpha (df : List Row) (tc : Option String) (lim : Option Nat)
    (out : List Row) (h : historyFilter df tc lim = Except.ok out) (t : Cell)
    (hG : tagGroup out t ≠ []) :
    ((tagGroup out t).map (fun rr => rr.alpha)).Nodup
    ∧ (∀ rr ∈ tagGroup out t, ∃ q : Rat, rr.alpha = some q ∧ 0 < q ∧ q ≤ 1)
    ∧ (∃ rr ∈ tagGroup out t, rr.alpha = some 1
        ∧ ∀ rr2 ∈ tagGroup out t, rr2.row.ts ≤ rr.row.ts)
    ∧ ((tagGroup out t).length = 1 → ∀ rr ∈ tagGroup out t, rr.alpha = some 1) := by
  have ht : t ≠ Cell.na := by
    rcases List.exists_mem_of_ne_nil _ hG with ⟨rr, hrr⟩
    have h1 := List.mem_filter.mp hrr
    have h2 : rr.row.tag = t := by simpa using h1.2
    have h3 : rr.row ∈ sortByTs out := by
      have := List.mem_map_of_mem (fun rr => rr.row) h1.1
      rwa [fadeRank_map_row] at this
    have h4 : rr.row ∈ out := (sortByTs_perm out).mem_iff.mp h3
    rw [← h2]
    exact historyFilter_ok_tags h rr.row h4
  have halpha := tagGroup_map_alpha out t ht
  have hrow := tagGroup_map_row out t
  have hNpos : 0 < (tagGroup out t).length := List.length_pos.mpr hG
  have hNQ : (0 : Rat) < ((tagGroup out t).length : Rat) := by exact_mod_cast hNpos
  have hNne : ((tagGroup out t).length : Rat) ≠ 0 := ne_of_gt hNQ
  refine ⟨?_, ?_, ?_, ?_⟩
  · rw [halpha]
    apply List.Nodup.map_on ?_ (List.nodup_range _)
    intro x hx y hy hxy
    have h1 : ((x : Rat) + 1) / ((tagGroup out t).length : Rat)
        = ((y : Rat) + 1) / ((tagGroup out t).length : Rat) := by
      simpa using hxy
    field_simp at h1
    exact_mod_cast h1
  · intro rr hrr
    have hmem : rr.alpha ∈ (tagGroup out t).map (fun rr => rr.alpha) :=
      List.mem_map_of_mem _ hrr
    rw [halpha] at hmem
    rcases List.mem_map.mp hmem with ⟨k, hk, hval⟩
    have hkN : k < (tagGroup out t).length := List.mem_range.mp hk
    refine ⟨((k : Rat) + 1) / ((tagGroup out t).length : Rat), hval.symm, ?_, ?_⟩
    · apply div_pos ?_ hNQ
      positivity
    · rw [div_le_one hNQ]
      exact_mod_cast Nat.succ_le_of_lt hkN
  · have hGlast : (tagGroup out t).getLast? = some ((tagGroup out t).getLast hG) :=
      List.getLast?_eq_getLast _ hG
    have h1 : ((tagGroup out t).map (fun rr => rr.alpha)).getLast?
        = some (((tagGroup out t).getLast hG).alpha) := by
      rw [List.getLast?_map, hGlast]
      rfl
    obtain ⟨M, hM⟩ : ∃ M, (tagGroup out t).length = M + 1 :=
      ⟨(tagGroup out t).length - 1, by omega⟩
    have h2 : ((List.range ((tagGroup out t).length)).map
        (fun k : Nat => some (((k : Rat) + 1) / ((tagGroup out t).length : Rat)))).getLast?
        = some (some (((M : Rat) + 1) / ((tagGroup out t).length : Rat))) := by
      conv =>
        lhs
        rw [List.getLast?_map, hM, List.range_succ, List.getLast?_concat]
      rw [hM]
      rfl
    rw [halpha] at h1
    have halphaLast : ((tagGroup out t).getLast hG).alpha
        = some (((M : Rat) + 1) / ((tagGroup out t).length : Rat)) :=
      Option.some.inj (h1.symm.trans h2)
    have hcast : ((tagGroup out t).length : Rat) = (M : Rat) + 1 := by
      rw [hM]
      push_cast
      ring
    have hone : ((M : Rat) + 1) / ((tagGroup out t).length : Rat) = 1 := by
      rw [hcast]
      apply div_self
      positivity
    refine ⟨(tagGroup out t).getLast hG, List.getLast_mem hG, ?_, ?_⟩
    · rw [halphaLast, hone]
    · intro rr2 hrr2
      have hGslen : ((sortByTs out).filter (fun q => decide (q.tag = t))).length
          = (tagGroup out t).length := by
        have := congrArg List.length hrow
        simpa using this.symm
      have hGsne : (sortByTs out).filter (fun q => decide (q.tag = t)) ≠ [] := by
        rw [← List.length_pos, hGslen]
        exact hNpos
      have e1 : ((tagGroup out t).map (fun rr => rr.row)).getLast?
          = some (((tagGroup out t).getLast hG).row) := by
        rw [List.getLast?_map, hGlast]
        rfl
      rw [hrow] at e1
      have e2 := List.getLast?_eq_getLast _ hGsne
      have hlastrow : ((tagGroup out t).getLast hG).row
          = ((sortByTs out).filter (fun q => decide (q.tag = t))).getLast hGsne :=
        Option.some.inj (e1.symm.trans e2)
      have hsorted : List.Sorted tsLE ((sortByTs out).filter (fun q => decide (q.tag = t))) :=
        (sortByTs_sorted out).filter _
      have hr2row : rr2.row ∈ (sortByTs out).filter (fun q => decide (q.tag = t)) := by
        rw [← hrow]
        exact List.mem_map_of_mem _ hrr2
      have := sorted_ts_le_getLast _ hsorted hGsne rr2.row hr2row
      rwa [← hlastrow] at this
  · intro hlen rr hrr
    have hmem : rr.alpha ∈ (tagGroup out t).map (fun rr => rr.alpha) :=
      List.mem_map_of_mem _ hrr
    rw [halpha, hlen] at hmem
    simp only [List.range_succ, List.range_zero, List.nil_append, List.map_cons,
      List.map_nil, List.mem_singleton] at hmem
    rw [hmem]
    norm_num

/-- Witness for C6: floor dataset with two tag-A rows and one tag-B row,
tag="All", limit="All", inspecting the tag-A group. -/
theorem fade_group_alpha_witness :
    ((tagGroup [rowA1, rowA2, rowB1] (Cell.text "A")).map (fun rr => rr.alpha)).Nodup
    ∧ (∀ rr ∈ tagGroup [rowA1, rowA2, rowB1] (Cell.text "A"),
        ∃ q : Rat, rr.alpha = some q ∧ 0 < q ∧ q ≤ 1)
    ∧ (∃ rr ∈ tagGroup [rowA1, rowA2, rowB1] (Cell.text "A"), rr.alpha = some 1
        ∧ ∀ rr2 ∈ tagGroup [rowA1, rowA2, rowB1] (Cell.text "A"),
            rr2.row.ts ≤ rr.row.ts)
    ∧ ((tagGroup [rowA1, rowA2, rowB1] (Cell.text "A")).length = 1 →
        ∀ rr ∈ tagGroup [rowA1, rowA2, rowB1] (Cell.text "A"), rr.alpha = some 1) :=
  fade_group_alpha [rowA2, rowB1, rowA1] none none [rowA1, rowA2, rowB1] rfl
    (Cell.text "A") (by decide)

end LocationTracker
